import Mathlib

/-!
Verification of `pydantic2ts/cli/script.py` against its specification.

The Python source is shallowly embedded: Python objects inspected by the
discovery code become the inductive `PyObj`; JSON-schema dictionaries become
the inductive `Json` with Python-dict association-list operations; fallible
Python code (code that can raise) returns `Option`.
-/

namespace Pydantic2TS

/-! ## String helpers

Python string primitives used by the script: `str.startswith`,
`str.rstrip('\r\n')`, and the lexicographic ordering `sorted` uses
(by Unicode code point). -/

/-- Lexicographic comparison of character lists by Unicode code point,
as Python compares strings. -/
def lexLe : List Char → List Char → Bool
  | [], _ => true
  | _ :: _, [] => false
  | a :: as, b :: bs =>
    if a.toNat < b.toNat then true
    else if b.toNat < a.toNat then false
    else lexLe as bs

/-- Python `a <= b` on strings (lexicographic by code point). -/
def strLeb (a b : String) : Bool := lexLe a.toList b.toList

/-- Python `s.startswith(p)`. -/
def startswithB (s p : String) : Bool := p.toList.isPrefixOf s.toList

/-- Python `s.rstrip('\r\n')`: remove trailing carriage returns and newlines. -/
def rstrip_crlf (s : String) : String :=
  String.mk ((s.toList.reverse.dropWhile (fun c => c == '\r' || c == '\n')).reverse)

/-! ## Python objects as seen by the discovery code

`extract_pydantic_models` inspects module members with `inspect`.  The
attributes the script reads are: `__name__` (via `getattr` with default
`''`), whether the object is a class (`inspect.isclass`), whether it is a
subclass of pydantic's `BaseModel` (`issubclass(obj, BaseModel)`), whether
it is `BaseModel` itself (`obj != BaseModel`), and whether it is a module
(`inspect.ismodule`) together with its members.  The `id` field of `cls`
models Python object identity, so two distinct classes sharing a name are
distinct values. -/

inductive PyObj where
  /-- A class object: identity, `__name__`, whether it is a subclass of
  `BaseModel`, and whether it is `BaseModel` itself. -/
  | cls (id : Nat) (name : String) (subOfBase : Bool) (isBase : Bool)
  /-- A module object: `__name__` and its member bindings
  (attribute name paired with the bound object). -/
  | pymodule (name : String) (members : List (String × PyObj))
  /-- Any other Python object. -/
  | other

/-- Python `getattr(obj, '__name__', '')`. -/
def getattr_name : PyObj → String
  | PyObj.cls _ name _ _ => name
  | PyObj.pymodule name _ => name
  | PyObj.other => ""

/-- `inspect.isclass(obj)`. -/
def isclass : PyObj → Bool
  | PyObj.cls .. => true
  | _ => false

/-- `inspect.ismodule(obj)`. -/
def ismodule : PyObj → Bool
  | PyObj.pymodule .. => true
  | _ => false

/-- `issubclass(obj, BaseModel)`.  Only called after an `isclass` guard in
the source, so the value on non-class objects is never observed. -/
def issubclass_basemodel : PyObj → Bool
  | PyObj.cls _ _ subOfBase _ => subOfBase
  | _ => false

/-- Python `obj == BaseModel` (identity with the `BaseModel` class object;
non-class objects are never `BaseModel`). -/
def is_basemodel : PyObj → Bool
  | PyObj.cls _ _ _ isBase => isBase
  | _ => false

/-- `not_private` from the source:
`not getattr(obj, '__name__', '').startswith('_')`. -/
def not_private (obj : PyObj) : Bool :=
  !(startswithB (getattr_name obj) "_")

/-- `is_submodule` from the source: `not_private(obj) and inspect.ismodule(obj)
and getattr(obj, '__name__', '').startswith(f'{module_name}.')`. -/
def is_submodule (obj : PyObj) (module_name : String) : Bool :=
  not_private obj && ismodule obj && startswithB (getattr_name obj) (module_name ++ ".")

/-- `is_pydantic_model` from the source: `not_private(obj) and
inspect.isclass(obj) and issubclass(obj, BaseModel) and obj != BaseModel`. -/
def is_pydantic_model (obj : PyObj) : Bool :=
  not_private obj && isclass obj && issubclass_basemodel obj && !(is_basemodel obj)

/-! ## `inspect.getmembers`

`inspect.getmembers(module, predicate)` returns the `(name, value)` member
pairs satisfying the predicate, sorted by binding name.  The sort is modelled
by a stable insertion sort on the binding names. -/

/-- Insert a member pair into a name-sorted list of member pairs (stable:
an element is placed before later elements with an equal name). -/
def insertByName (x : String × PyObj) : List (String × PyObj) → List (String × PyObj)
  | [] => [x]
  | y :: ys => if strLeb x.1 y.1 then x :: y :: ys else y :: insertByName x ys

/-- Sort member pairs by binding name (stable insertion sort), as
`inspect.getmembers` sorts its result. -/
def sortByName : List (String × PyObj) → List (String × PyObj)
  | [] => []
  | x :: xs => insertByName x (sortByName xs)

/-- `inspect.getmembers(module, predicate)`: member pairs sorted by binding
name, filtered by a predicate on the bound object. -/
def getmembers (members : List (String × PyObj)) (p : PyObj → Bool) :
    List (String × PyObj) :=
  (sortByName members).filter (fun kv => p kv.2)

theorem mem_insertByName {x y : String × PyObj} {l : List (String × PyObj)} :
    x ∈ insertByName y l ↔ x = y ∨ x ∈ l := by
  induction l with
  | nil => simp [insertByName]
  | cons z zs ih =>
    simp only [insertByName]
    by_cases h : strLeb y.1 z.1 = true
    · rw [if_pos h]
      simp
    · rw [if_neg h]
      simp only [List.mem_cons, ih]
      tauto

theorem mem_sortByName {x : String × PyObj} {l : List (String × PyObj)} :
    x ∈ sortByName l ↔ x ∈ l := by
  induction l with
  | nil => simp [sortByName]
  | cons z zs ih => simp [sortByName, mem_insertByName, ih]

theorem mem_getmembers_map_snd {members : List (String × PyObj)} {p : PyObj → Bool}
    {m : PyObj} :
    m ∈ (getmembers members p).map Prod.snd ↔ (∃ k, (k, m) ∈ members) ∧ p m = true := by
  simp only [getmembers, List.mem_map, List.mem_filter, mem_sortByName]
  constructor
  · rintro ⟨⟨k, v⟩, ⟨hmem, hp⟩, rfl⟩
    exact ⟨⟨k, hmem⟩, hp⟩
  · rintro ⟨⟨k, hmem⟩, hp⟩
    exact ⟨(k, m), ⟨hmem, hp⟩, rfl⟩

/-! Size lemmas used to justify the termination of the recursive discovery. -/

theorem sizeOf_insertByName (x : String × PyObj) (l : List (String × PyObj)) :
    sizeOf (insertByName x l) = sizeOf (x :: l) := by
  induction l with
  | nil => rfl
  | cons y ys ih =>
    simp only [insertByName]
    by_cases h : strLeb x.1 y.1 = true
    · rw [if_pos h]
    · rw [if_neg h]
      simp only [List.cons.sizeOf_spec] at ih ⊢
      omega

theorem sizeOf_sortByName (l : List (String × PyObj)) :
    sizeOf (sortByName l) = sizeOf l := by
  induction l with
  | nil => rfl
  | cons x xs ih =>
    simp only [sortByName, sizeOf_insertByName, List.cons.sizeOf_spec] at ih ⊢
    omega

theorem sizeOf_filter_le (p : String × PyObj → Bool) (l : List (String × PyObj)) :
    sizeOf (l.filter p) ≤ sizeOf l := by
  induction l with
  | nil => simp
  | cons x xs ih =>
    rw [List.filter_cons]
    by_cases h : p x = true
    · rw [if_pos h]
      simp only [List.cons.sizeOf_spec]
      omega
    · rw [if_neg h]
      simp only [List.cons.sizeOf_spec]
      omega

theorem sizeOf_map_snd_le (l : List (String × PyObj)) :
    sizeOf (l.map Prod.snd) ≤ sizeOf l := by
  induction l with
  | nil => simp
  | cons x xs ih =>
    obtain ⟨k, v⟩ := x
    simp only [List.map_cons, List.cons.sizeOf_spec, Prod.mk.sizeOf_spec]
    omega

theorem sizeOf_getmembers_map_snd_lt (name : String) (members : List (String × PyObj))
    (p : PyObj → Bool) :
    sizeOf ((getmembers members p).map Prod.snd) < sizeOf (PyObj.pymodule name members) := by
  have h1 := sizeOf_map_snd_le (getmembers members p)
  have h2 := sizeOf_filter_le (fun kv => p kv.2) (sortByName members)
  have h3 := sizeOf_sortByName members
  simp only [PyObj.pymodule.sizeOf_spec]
  simp only [getmembers] at h1 h2 ⊢
  have h4 : 0 < sizeOf name := by
    cases name
    simp only [String.mk.sizeOf_spec]
    omega
  omega

theorem sizeOf_snd_lt_of_mem {k : String} {s : PyObj} {members : List (String × PyObj)} :
    (k, s) ∈ members → ∀ name, sizeOf s < sizeOf (PyObj.pymodule name members) := by
  intro hmem name
  have h1 : sizeOf (k, s) ≤ sizeOf members := by
    induction members with
    | nil => cases hmem
    | cons x xs ih =>
      rcases List.mem_cons.mp hmem with h | h
      · subst h
        simp only [List.cons.sizeOf_spec]
        omega
      · have := ih h
        simp only [List.cons.sizeOf_spec]
        omega
  simp only [Prod.mk.sizeOf_spec] at h1
  simp only [PyObj.pymodule.sizeOf_spec]
  omega

/-! ## Model discovery: `extract_pydantic_models`

The source:
```
def extract_pydantic_models(module):
    models = []
    module_name = module.__name__
    for _, model in inspect.getmembers(module, is_pydantic_model):
        models.append(model)
    for _, submodule in inspect.getmembers(module, lambda obj: is_submodule(obj, module_name)):
        models.extend(extract_pydantic_models(submodule))
    return models
```
Note the prefix passed to `is_submodule` at each level is the *current*
module's name.  Recursion terminates because a qualifying submodule is a
direct member of the current module, hence structurally smaller. -/

/-- The pydantic-model members collected from a module's member list. -/
def direct_model_members (members : List (String × PyObj)) : List PyObj :=
  (getmembers members is_pydantic_model).map Prod.snd

/-- The qualifying submodule members of a module with name `name`. -/
def direct_submodule_members (name : String) (members : List (String × PyObj)) :
    List PyObj :=
  (getmembers members (fun obj => is_submodule obj name)).map Prod.snd

mutual

/-- `extract_pydantic_models(module)` from the source: direct model members
followed by the models extracted from each qualifying submodule, in
member-iteration order. -/
def extract_pydantic_models : PyObj → List PyObj
  | PyObj.pymodule name members =>
    direct_model_members members ++
      extract_from_submodules (direct_submodule_members name members)
  | PyObj.cls .. => []
  | PyObj.other => []
termination_by obj => sizeOf obj
decreasing_by
  have h := sizeOf_getmembers_map_snd_lt name members (fun obj => is_submodule obj name)
  simp only [direct_submodule_members]
  omega

/-- The `models.extend(extract_pydantic_models(submodule))` loop. -/
def extract_from_submodules : List PyObj → List PyObj
  | [] => []
  | s :: rest => extract_pydantic_models s ++ extract_from_submodules rest
termination_by l => sizeOf l
decreasing_by
  · simp only [List.cons.sizeOf_spec]
    omega
  · simp only [List.cons.sizeOf_spec]
    omega

end

theorem extract_eq_module (name : String) (members : List (String × PyObj)) :
    extract_pydantic_models (PyObj.pymodule name members) =
      direct_model_members members ++
        extract_from_submodules (direct_submodule_members name members) := by
  rw [extract_pydantic_models]

theorem extract_from_submodules_nil : extract_from_submodules [] = [] := by
  rw [extract_from_submodules]

theorem extract_from_submodules_cons (s : PyObj) (rest : List PyObj) :
    extract_from_submodules (s :: rest) =
      extract_pydantic_models s ++ extract_from_submodules rest := by
  rw [extract_from_submodules]

theorem mem_extract_from_submodules {m : PyObj} {l : List PyObj} :
    m ∈ extract_from_submodules l ↔ ∃ s ∈ l, m ∈ extract_pydantic_models s := by
  induction l with
  | nil => simp [extract_from_submodules_nil]
  | cons s rest ih =>
    rw [extract_from_submodules_cons]
    simp only [List.mem_append, List.mem_cons, ih]
    constructor
    · rintro (h | ⟨t, ht, hm⟩)
      · exact ⟨s, Or.inl rfl, h⟩
      · exact ⟨t, Or.inr ht, hm⟩
    · rintro ⟨t, (rfl | ht), hm⟩
      · exact Or.inl hm
      · exact Or.inr ⟨t, ht, hm⟩

/-! ## Reachability of a model from a root module

A Model is reachable from a module when it is a qualifying direct member,
or it is reachable from a qualifying direct submodule — the qualification
of a submodule being relative to the name of the module it is a member of,
as in the source. -/

inductive ReachableModel : PyObj → PyObj → Prop where
  | direct (name : String) (members : List (String × PyObj)) (k : String) (m : PyObj) :
      (k, m) ∈ members → is_pydantic_model m = true →
      ReachableModel (PyObj.pymodule name members) m
  | via_submodule (name : String) (members : List (String × PyObj)) (k : String)
      (s m : PyObj) :
      (k, s) ∈ members → is_submodule s name = true → ReachableModel s m →
      ReachableModel (PyObj.pymodule name members) m

theorem mem_extract_of_reachable {root m : PyObj} (h : ReachableModel root m) :
    m ∈ extract_pydantic_models root := by
  induction h with
  | direct name members k m hmem hp =>
    rw [extract_eq_module]
    apply List.mem_append_left
    exact mem_getmembers_map_snd.mpr ⟨⟨k, hmem⟩, hp⟩
  | via_submodule name members k s m hmem hsub _ ih =>
    rw [extract_eq_module]
    apply List.mem_append_right
    exact mem_extract_from_submodules.mpr
      ⟨s, mem_getmembers_map_snd.mpr ⟨⟨k, hmem⟩, hsub⟩, ih⟩

theorem reachable_of_mem_extract_aux :
    ∀ n, ∀ root : PyObj, sizeOf root ≤ n → ∀ m : PyObj,
      m ∈ extract_pydantic_models root → ReachableModel root m := by
  intro n
  induction n using Nat.strong_induction_on with
  | _ n ih =>
    intro root hsize m hm
    match root with
    | PyObj.cls i nm sb ib => rw [extract_pydantic_models] at hm; cases hm
    | PyObj.other => rw [extract_pydantic_models] at hm; cases hm
    | PyObj.pymodule name members =>
      rw [extract_eq_module] at hm
      rcases List.mem_append.mp hm with h | h
      · obtain ⟨⟨k, hmem⟩, hp⟩ := mem_getmembers_map_snd.mp h
        exact ReachableModel.direct name members k m hmem hp
      · obtain ⟨s, hs, hms⟩ := mem_extract_from_submodules.mp h
        obtain ⟨⟨k, hmem⟩, hsub⟩ := mem_getmembers_map_snd.mp hs
        have hlt : sizeOf s < sizeOf (PyObj.pymodule name members) :=
          sizeOf_snd_lt_of_mem hmem name
        have hreach : ReachableModel s m := by
          rcases n with _ | n
          · omega
          · exact ih n (by omega) s (by omega) m hms
        exact ReachableModel.via_submodule name members k s m hmem hsub hreach

/-- Claim C1 (amended): discovery returns exactly the Models reachable via
direct membership or nested qualifying submodules — each such Model occurs
in the returned list (and only such Models do) — but the list is *not*
deduplicated: a Model reachable through several membership paths occurs once
per path. -/
theorem extract_mem_iff_reachable (root m : PyObj) :
    m ∈ extract_pydantic_models root ↔ ReachableModel root m :=
  ⟨reachable_of_mem_extract_aux (sizeOf root) root (Nat.le_refl _) m,
   mem_extract_of_reachable⟩

/-! ## A concrete module graph on which discovery duplicates a model

The class `M` is a direct member of the root package `pkg` and is also a
member of (re-exported by) the qualifying submodule `pkg.sub`, so it is
reachable through two membership paths. -/

def c1_model : PyObj := PyObj.cls 0 "M" true false

def c1_sub : PyObj := PyObj.pymodule "pkg.sub" [("M", c1_model)]

def c1_root : PyObj := PyObj.pymodule "pkg" [("M", c1_model), ("sub", c1_sub)]

theorem extract_c1_root_eq :
    extract_pydantic_models c1_root = [c1_model, c1_model] := by
  unfold c1_root
  rw [extract_eq_module]
  have hd : direct_model_members [("M", c1_model), ("sub", c1_sub)] = [c1_model] := rfl
  have hs : direct_submodule_members "pkg" [("M", c1_model), ("sub", c1_sub)] =
      [c1_sub] := rfl
  rw [hd, hs, extract_from_submodules_cons, extract_from_submodules_nil]
  rw [show c1_sub = PyObj.pymodule "pkg.sub" [("M", c1_model)] from rfl,
    extract_eq_module]
  have hd2 : direct_model_members [("M", c1_model)] = [c1_model] := rfl
  have hs2 : direct_submodule_members "pkg.sub" [("M", c1_model)] = [] := rfl
  rw [hd2, hs2, extract_from_submodules_nil]
  rfl

/-- Claim C1 counterexample: in the module graph `c1_root`, the single Model
class `c1_model` is reachable through two submodule paths, and discovery
returns it twice, not once — `extract_pydantic_models` performs no
deduplication at all. -/
theorem extract_duplicates_counterexample :
    extract_pydantic_models c1_root = [c1_model, c1_model] ∧
      ReachableModel c1_root c1_model :=
  ⟨extract_c1_root_eq,
   ReachableModel.direct "pkg" [("M", c1_model), ("sub", c1_sub)] "M" c1_model
     (List.mem_cons_self _ _) rfl⟩

/-- Claim C8: a direct member of a module is collected as a Model during
discovery if and only if it is a class, its exposed name does not start with
an underscore, it is a subclass of the base Model type, and it is not the
base Model type itself. -/
theorem direct_member_collected_iff (members : List (String × PyObj)) (m : PyObj) :
    m ∈ direct_model_members members ↔
      (∃ k, (k, m) ∈ members) ∧ isclass m = true ∧
        startswithB (getattr_name m) "_" = false ∧
        issubclass_basemodel m = true ∧ is_basemodel m = false := by
  simp only [direct_model_members, mem_getmembers_map_snd, is_pydantic_model,
    Bool.and_eq_true, Bool.not_eq_true', not_private]
  tauto

/-! ## The spec's reading of submodule qualification

The spec states that at *every* level of recursion a member qualifies as a
submodule when its fully-qualified name starts with the *root* module's name
followed by a dot.  The following pair of functions follows the spec's words
(the root module's name is threaded unchanged through the recursion), to be
compared with `extract_pydantic_models`, which at each level tests against
the name of the module currently being scanned. -/

mutual

/-- Modelled from the spec: discovery in which the qualifying prefix is the
fixed root module's name at every level of recursion (the spec's words for
`extract_pydantic_models`); the code itself re-reads the prefix from the
current module. -/
def extract_models_rootqual_go (rootName : String) : PyObj → List PyObj
  | PyObj.pymodule _name members =>
    direct_model_members members ++
      extract_rootqual_subs rootName (direct_submodule_members rootName members)
  | PyObj.cls .. => []
  | PyObj.other => []
termination_by obj => sizeOf obj
decreasing_by
  have h := sizeOf_getmembers_map_snd_lt name members
    (fun obj => is_submodule obj rootName)
  simp only [direct_submodule_members]
  omega

/-- Modelled from the spec: the recursion over qualifying submodules for
`extract_models_rootqual_go`. -/
def extract_rootqual_subs (rootName : String) : List PyObj → List PyObj
  | [] => []
  | s :: rest =>
    extract_models_rootqual_go rootName s ++ extract_rootqual_subs rootName rest
termination_by l => sizeOf l
decreasing_by
  · simp only [List.cons.sizeOf_spec]
    omega
  · simp only [List.cons.sizeOf_spec]
    omega

end

/-- Modelled from the spec: discovery from a root module under the spec's
root-name qualification rule. -/
def extract_pydantic_models_rootqual : PyObj → List PyObj
  | PyObj.pymodule name members =>
    extract_models_rootqual_go name (PyObj.pymodule name members)
  | _ => []

theorem rootqual_go_eq_module (rootName name : String)
    (members : List (String × PyObj)) :
    extract_models_rootqual_go rootName (PyObj.pymodule name members) =
      direct_model_members members ++
        extract_rootqual_subs rootName (direct_submodule_members rootName members) := by
  rw [extract_models_rootqual_go]

theorem rootqual_subs_nil (rootName : String) :
    extract_rootqual_subs rootName [] = [] := by
  rw [extract_rootqual_subs]

theorem rootqual_subs_cons (rootName : String) (s : PyObj) (rest : List PyObj) :
    extract_rootqual_subs rootName (s :: rest) =
      extract_models_rootqual_go rootName s ++ extract_rootqual_subs rootName rest := by
  rw [extract_rootqual_subs]

theorem mem_rootqual_subs {rootName : String} {m : PyObj} {l : List PyObj} :
    m ∈ extract_rootqual_subs rootName l ↔
      ∃ s ∈ l, m ∈ extract_models_rootqual_go rootName s := by
  induction l with
  | nil => simp [rootqual_subs_nil]
  | cons s rest ih =>
    rw [rootqual_subs_cons]
    simp only [List.mem_append, List.mem_cons, ih]
    constructor
    · rintro (h | ⟨t, ht, hm⟩)
      · exact ⟨s, Or.inl rfl, h⟩
      · exact ⟨t, Or.inr ht, hm⟩
    · rintro ⟨t, (rfl | ht), hm⟩
      · exact Or.inl hm
      · exact Or.inr ⟨t, ht, hm⟩

theorem startswithB_dot_trans {a b c : String}
    (h1 : startswithB b (a ++ ".") = true) (h2 : startswithB c (b ++ ".") = true) :
    startswithB c (a ++ ".") = true := by
  simp only [startswithB, List.isPrefixOf_iff_prefix] at h1 h2 ⊢
  have e : ∀ s : String, (s ++ ".").toList = s.toList ++ ['.'] := by
    intro s
    exact String.data_append s "."
  rw [e] at h1 h2 ⊢
  exact h1.trans ((List.prefix_append _ _).trans h2)

theorem extract_subset_rootqual_aux :
    ∀ n, ∀ v : PyObj, sizeOf v ≤ n → ∀ rootName m,
      m ∈ extract_pydantic_models v →
      (getattr_name v = rootName ∨
        startswithB (getattr_name v) (rootName ++ ".") = true) →
      m ∈ extract_models_rootqual_go rootName v := by
  intro n
  induction n using Nat.strong_induction_on with
  | _ n ih =>
    intro v hsize rootName m hm hctx
    match v with
    | PyObj.cls i nm sb ib => rw [extract_pydantic_models] at hm; cases hm
    | PyObj.other => rw [extract_pydantic_models] at hm; cases hm
    | PyObj.pymodule name members =>
      rw [extract_eq_module] at hm
      rw [rootqual_go_eq_module]
      rcases List.mem_append.mp hm with h | h
      · exact List.mem_append_left _ h
      · apply List.mem_append_right
        obtain ⟨s, hs, hms⟩ := mem_extract_from_submodules.mp h
        obtain ⟨⟨k, hmem⟩, hsub⟩ := mem_getmembers_map_snd.mp hs
        simp only [is_submodule, Bool.and_eq_true] at hsub
        obtain ⟨⟨hpriv, hmod⟩, hpre⟩ := hsub
        have hpre' : startswithB (getattr_name s) (rootName ++ ".") = true := by
          rcases hctx with rfl | hctx
          · exact hpre
          · exact startswithB_dot_trans hctx hpre
        have hsub' : is_submodule s rootName = true := by
          simp only [is_submodule, Bool.and_eq_true]
          exact ⟨⟨hpriv, hmod⟩, hpre'⟩
        have hlt : sizeOf s < sizeOf (PyObj.pymodule name members) :=
          sizeOf_snd_lt_of_mem hmem name
        have hgo : m ∈ extract_models_rootqual_go rootName s := by
          rcases n with _ | n
          · omega
          · exact ih n (by omega) s (by omega) rootName m hms (Or.inr hpre')
        exact mem_rootqual_subs.mpr
          ⟨s, mem_getmembers_map_snd.mpr ⟨⟨k, hmem⟩, hsub'⟩, hgo⟩

/-- Claim C5 (amended): at every level of recursion a direct member is
recursed into as a submodule if and only if it is not private, is a module,
and its fully-qualified name starts with the *current* (immediate parent)
module's name followed by a dot — not the root's.  Since each qualifying
name strictly extends its parent's, every Model the code discovers is also
discovered under the spec's root-prefix rule, but not conversely. -/
theorem extract_subset_rootqual (root m : PyObj)
    (h : m ∈ extract_pydantic_models root) :
    m ∈ extract_pydantic_models_rootqual root := by
  match root with
  | PyObj.cls i nm sb ib => rw [extract_pydantic_models] at h; cases h
  | PyObj.other => rw [extract_pydantic_models] at h; cases h
  | PyObj.pymodule name members =>
    rw [show extract_pydantic_models_rootqual (PyObj.pymodule name members) =
      extract_models_rootqual_go name (PyObj.pymodule name members) from rfl]
    exact extract_subset_rootqual_aux (sizeOf (PyObj.pymodule name members)) _
      (Nat.le_refl _) name m h (Or.inl rfl)

/-- Witness for `extract_subset_rootqual`: in the concrete graph `c1_root`,
the model found by `extract_pydantic_models` is also found under the spec's
root-prefix rule. -/
theorem extract_subset_rootqual_witness :
    c1_model ∈ extract_pydantic_models_rootqual c1_root :=
  extract_subset_rootqual c1_root c1_model
    (by rw [extract_c1_root_eq]; exact List.mem_cons_self _ _)

/-! ## A module graph separating the two qualification rules

`pkg.sub` has a member module named `pkg.other`: its name starts with the
root's name `pkg.` but not with its parent's name `pkg.sub.`. -/

def c5_m9 : PyObj := PyObj.cls 9 "M9" true false

def c5_other : PyObj := PyObj.pymodule "pkg.other" [("M9", c5_m9)]

def c5_sub : PyObj := PyObj.pymodule "pkg.sub" [("oth", c5_other)]

def c5_root : PyObj := PyObj.pymodule "pkg" [("sub", c5_sub)]

theorem extract_c5_root_eq : extract_pydantic_models c5_root = [] := by
  unfold c5_root
  rw [extract_eq_module]
  have hd : direct_model_members [("sub", c5_sub)] = [] := rfl
  have hs : direct_submodule_members "pkg" [("sub", c5_sub)] = [c5_sub] := rfl
  rw [hd, hs, extract_from_submodules_cons, extract_from_submodules_nil]
  rw [show c5_sub = PyObj.pymodule "pkg.sub" [("oth", c5_other)] from rfl,
    extract_eq_module]
  have hd2 : direct_model_members [("oth", c5_other)] = [] := rfl
  have hs2 : direct_submodule_members "pkg.sub" [("oth", c5_other)] = [] := rfl
  rw [hd2, hs2, extract_from_submodules_nil]
  rfl

theorem rootqual_c5_root_eq :
    extract_pydantic_models_rootqual c5_root = [c5_m9] := by
  rw [show extract_pydantic_models_rootqual c5_root =
    extract_models_rootqual_go "pkg" (PyObj.pymodule "pkg" [("sub", c5_sub)])
    from rfl]
  rw [rootqual_go_eq_module]
  have hd : direct_model_members [("sub", c5_sub)] = [] := rfl
  have hs : direct_submodule_members "pkg" [("sub", c5_sub)] = [c5_sub] := rfl
  rw [hd, hs, rootqual_subs_cons, rootqual_subs_nil]
  rw [show c5_sub = PyObj.pymodule "pkg.sub" [("oth", c5_other)] from rfl,
    rootqual_go_eq_module]
  have hd2 : direct_model_members [("oth", c5_other)] = [] := rfl
  have hs2 : direct_submodule_members "pkg" [("oth", c5_other)] = [c5_other] := rfl
  rw [hd2, hs2, rootqual_subs_cons, rootqual_subs_nil]
  rw [show c5_other = PyObj.pymodule "pkg.other" [("M9", c5_m9)] from rfl,
    rootqual_go_eq_module]
  have hd3 : direct_model_members [("M9", c5_m9)] = [c5_m9] := rfl
  have hs3 : direct_submodule_members "pkg" [("M9", c5_m9)] = [] := rfl
  rw [hd3, hs3, rootqual_subs_nil]
  rfl

/-- Claim C5 counterexample: the member module `pkg.other` of `pkg.sub` is
root-prefixed (`pkg.`) but not parent-prefixed (`pkg.sub.`): the code does
not recurse into it (`is_submodule` is `false` against the immediate parent's
name, and the model `M9` inside it is not discovered), whereas under the
claim's root-prefix rule it would be recursed into and `M9` discovered. -/
theorem is_submodule_root_counterexample :
    is_submodule c5_other "pkg.sub" = false ∧ is_submodule c5_other "pkg" = true ∧
      extract_pydantic_models c5_root = [] ∧
      extract_pydantic_models_rootqual c5_root = [c5_m9] :=
  ⟨rfl, rfl, extract_c5_root_eq, rootqual_c5_root_eq⟩

/-! ## Container removal: `remove_master_model_from_output`

The source:
```
start, end = None, None
for i, line in enumerate(lines):
    if line.rstrip('\r\n') == 'export interface _Master_ {':
        start = i
    elif (start is not None) and line.rstrip('\r\n') == '}':
        end = i
        break
new_lines = lines[:start] + lines[(end + 1):]
```
The file content is modelled as the list of lines returned by `readlines`
(each line keeps its terminator).  When the loop finishes with `end` still
`None`, the slice bound `end + 1` raises `TypeError` in Python; this error
outcome is modelled as `none`. -/

/-- The container's start-delimiter line. -/
def master_start_line : String := "export interface _Master_ \x7b"

/-- The container's end-delimiter line. -/
def master_close_line : String := "\x7d"

/-- The delimiter-scanning loop: returns the final values of `start` and
`end` (`end` is set, and the loop breaks, at the first line equal to `}`
seen while `start` is already set; `start` is overwritten by every
start-delimiter line seen before that). -/
def scanDelims : List String → Nat → Option Nat → Option Nat × Option Nat
  | [], _, start => (start, none)
  | line :: rest, i, start =>
    if rstrip_crlf line == master_start_line then
      scanDelims rest (i + 1) (some i)
    else if start.isSome && (rstrip_crlf line == master_close_line) then
      (start, some i)
    else
      scanDelims rest (i + 1) start

/-- `remove_master_model_from_output`, on the list of lines of the output
file: `lines[:start] + lines[(end + 1):]` when the loop set `end`
(`lines[:None]` is the whole list), and the Python `TypeError` raised by
`None + 1` — and hence no write-back — when it did not. -/
def remove_master_model_from_output (lines : List String) : Option (List String) :=
  match scanDelims lines 0 none with
  | (start, some e) =>
    some ((match start with
           | some s => lines.take s
           | none => lines) ++ lines.drop (e + 1))
  | (_, none) => none

/-- Modelled from the spec: the claim's reading of container removal — all
lines strictly before the *first* start-delimiter line, concatenated with
all lines strictly after the first subsequent `}` line. -/
def remove_master_claimed (lines : List String) : Option (List String) :=
  match lines.findIdx? (fun l => rstrip_crlf l == master_start_line) with
  | none => none
  | some s =>
    match (lines.drop (s + 1)).findIdx? (fun l => rstrip_crlf l == master_close_line) with
    | none => none
    | some j => some (lines.take s ++ lines.drop (s + 1 + j + 1))

/-! Compositional behaviour of the scanning loop. -/

theorem scanDelims_append_of_none {xs : List String} {i : Nat}
    {st st' : Option Nat} (h : scanDelims xs i st = (st', none)) (ys : List String) :
    scanDelims (xs ++ ys) i st = scanDelims ys (i + xs.length) st' := by
  induction xs generalizing i st with
  | nil =>
    rw [scanDelims] at h
    injection h with h1 h2
    subst h1
    simp
  | cons line rest ih =>
    rw [List.cons_append]
    rw [scanDelims] at h
    rw [scanDelims]
    have harith : i + 1 + rest.length = i + (line :: rest).length := by
      simp only [List.length_cons]
      omega
    by_cases h1 : (rstrip_crlf line == master_start_line) = true
    · rw [if_pos h1] at h
      rw [if_pos h1, ih h, harith]
    · rw [if_neg h1] at h
      rw [if_neg h1]
      by_cases h2 : (st.isSome && (rstrip_crlf line == master_close_line)) = true
      · rw [if_pos h2] at h
        simp at h
      · rw [if_neg h2] at h
        rw [if_neg h2, ih h, harith]

theorem scanDelims_state_of_plain {v : List String}
    (h : ∀ l ∈ v, (rstrip_crlf l == master_start_line) = false ∧
      (rstrip_crlf l == master_close_line) = false) :
    ∀ i st, scanDelims v i st = (st, none) := by
  induction v with
  | nil => intro i st; rfl
  | cons line rest ih =>
    intro i st
    obtain ⟨h1, h2⟩ := h line (List.mem_cons_self _ _)
    rw [scanDelims, if_neg (by simp [h1]), if_neg (by simp [h2])]
    exact ih (fun l hl => h l (List.mem_cons_of_mem _ hl)) _ _

theorem scanDelims_of_no_start {lines : List String}
    (h : ∀ l ∈ lines, (rstrip_crlf l == master_start_line) = false) :
    ∀ i, scanDelims lines i none = (none, none) := by
  induction lines with
  | nil => intro i; rfl
  | cons line rest ih =>
    intro i
    rw [scanDelims, if_neg (by simp [h line (List.mem_cons_self _ _)])]
    rw [if_neg (by simp)]
    exact ih (fun l hl => h l (List.mem_cons_of_mem _ hl)) _

/-- Claim C2 counterexample: an output file whose lines contain no
start-delimiter line (here a `Foo` interface block) on which the removal
step does *not* complete: it raises a `TypeError` (modelled by `none`)
instead of writing any file back. -/
theorem remove_master_no_start_counterexample :
    remove_master_model_from_output
      ["export interface Foo \x7b\n", "  a: number;\n", "\x7d\n"] = none := rfl

/-- Claim C2 (amended): for every output-file content in which no line equals
the start delimiter, the container-removal step does not complete: `end`
stays unset and computing the slice bound `end + 1` raises a `TypeError`
before the file is written back. -/
theorem remove_master_errors_without_start (lines : List String)
    (h : ∀ l ∈ lines, (rstrip_crlf l == master_start_line) = false) :
    remove_master_model_from_output lines = none := by
  rw [remove_master_model_from_output]
  rw [scanDelims_of_no_start h 0]

/-- Witness for `remove_master_errors_without_start` at a concrete file
content. -/
theorem remove_master_errors_without_start_witness :
    remove_master_model_from_output ["export interface Bar \x7b\n", "\x7d\n"] = none :=
  remove_master_errors_without_start _ (by decide)

/-- Claim C4 (amended): when a start-delimiter line exists and is followed by
a `}` line, the removal keeps all lines strictly before the *last*
start-delimiter line preceding the first `}` line that follows any
start-delimiter line, plus all lines strictly after that `}` line.  Stated
on a file split as `u ++ sl :: (v ++ cl :: w)` where `sl` is a start
delimiter, `cl` a close delimiter, `v` contains neither delimiter (so `sl`
is the last start delimiter before `cl`), and scanning `u` alone sets no end
index (so `cl` is the first `}` line that follows a start delimiter). -/
theorem remove_master_slices_last_start_block (u v w : List String) (sl cl : String)
    (h1 : (rstrip_crlf sl == master_start_line) = true)
    (h2 : (rstrip_crlf cl == master_close_line) = true)
    (h3 : ∀ l ∈ v, (rstrip_crlf l == master_start_line) = false ∧
      (rstrip_crlf l == master_close_line) = false)
    (h4 : (scanDelims u 0 none).2 = none) :
    remove_master_model_from_output (u ++ sl :: (v ++ cl :: w)) = some (u ++ w) := by
  rcases hp : scanDelims u 0 none with ⟨st, e0⟩
  rw [hp] at h4
  have h4' : e0 = none := h4
  subst h4'
  have hscan : scanDelims (u ++ sl :: (v ++ cl :: w)) 0 none =
      (some u.length, some (u.length + 1 + v.length)) := by
    rw [scanDelims_append_of_none hp]
    rw [scanDelims, if_pos h1]
    have hv : scanDelims v (0 + u.length + 1) (some (0 + u.length)) =
        (some (0 + u.length), none) := scanDelims_state_of_plain h3 _ _
    rw [scanDelims_append_of_none hv]
    rw [scanDelims]
    have hclstart : (rstrip_crlf cl == master_start_line) = false := by
      have hcl : rstrip_crlf cl = master_close_line := eq_of_beq h2
      rw [hcl]
      decide
    rw [if_neg (by simp [hclstart])]
    rw [if_pos (by simp [h2])]
    simp only [Nat.zero_add]
  rw [remove_master_model_from_output, hscan]
  have htake : (u ++ sl :: (v ++ cl :: w)).take u.length = u := List.take_left u _
  have hassoc : u ++ sl :: (v ++ cl :: w) = (u ++ sl :: (v ++ [cl])) ++ w := by
    simp
  have hlen : (u ++ sl :: (v ++ [cl])).length = u.length + 1 + v.length + 1 := by
    simp only [List.length_append, List.length_cons, List.length_nil]
    omega
  have hdrop : (u ++ sl :: (v ++ cl :: w)).drop (u.length + 1 + v.length + 1) = w := by
    rw [hassoc, ← hlen, List.drop_left]
  simp only []
  rw [htake, hdrop]

/-- Witness for `remove_master_slices_last_start_block` at a concrete file
content: the banner and a `Foo` block survive, the container block between
the delimiters is excised. -/
theorem remove_master_slices_last_start_block_witness :
    remove_master_model_from_output
      ["/* banner */\n", "export interface _Master_ \x7b\n", "  Foo: Foo;\n",
        "\x7d\n", "export interface Foo \x7b\n", "\x7d\n"] =
      some ["/* banner */\n", "export interface Foo \x7b\n", "\x7d\n"] :=
  remove_master_slices_last_start_block ["/* banner */\n"] ["  Foo: Foo;\n"]
    ["export interface Foo \x7b\n", "\x7d\n"] "export interface _Master_ \x7b\n" "\x7d\n"
    (by decide) (by decide) (by decide) (by decide)

/-- Claim C4 counterexample: with two start-delimiter lines before the first
`}` line, the code slices from the *last* start-delimiter line (keeping the
first one in the output), while the claim's first-start reading
(`remove_master_claimed`) would remove both. -/
theorem remove_master_first_start_counterexample :
    remove_master_model_from_output
        ["export interface _Master_ \x7b\n", "export interface _Master_ \x7b\n",
          "\x7d\n", "x\n"] =
      some ["export interface _Master_ \x7b\n", "x\n"] ∧
    remove_master_claimed
        ["export interface _Master_ \x7b\n", "export interface _Master_ \x7b\n",
          "\x7d\n", "x\n"] =
      some ["x\n"] := by
  constructor
  · rfl
  · rfl

/-! ## JSON schema objects and the cleanup hook `clean_schema`

A JSON value; Python dictionaries become association lists whose keys are
unique (Python dicts cannot hold a key twice).  The dict operations below
follow Python semantics: `d[k] = v` overwrites the value in place when the
key exists and appends the binding otherwise; `d.pop(k, None)` removes the
binding of `k`. -/

inductive Json where
  | null
  | bool (b : Bool)
  | num (n : Int)
  | str (s : String)
  | arr (elems : List Json)
  | obj (fields : List (String × Json))

/-- Python `d.get(k)` / `d[k]`: the value bound to the first occurrence of a
key. -/
def lookupKV : List (String × Json) → String → Option Json
  | [], _ => none
  | (k', v) :: rest, k => if k' = k then some v else lookupKV rest k

/-- Python `d[k] = v`: overwrite an existing binding in place, else append. -/
def dictSet : List (String × Json) → String → Json → List (String × Json)
  | [], k, v => [(k, v)]
  | (k', v') :: rest, k, v =>
    if k' = k then (k, v) :: rest else (k', v') :: dictSet rest k v

/-- Python `d.pop(k, None)`'s effect on `d`: drop the binding of `k` (on
duplicate-free dictionaries dropping every occurrence is the same thing). -/
def eraseKey (l : List (String × Json)) (k : String) : List (String × Json) :=
  l.filter (fun kv => kv.1 != k)

/-- The pydantic `Extra` enum: a Model's extra-fields policy. -/
inductive Extra where
  | allow
  | ignore
  | forbid
deriving DecidableEq

/-- The `for prop in schema.get('properties', {}).values(): prop.pop('title',
None)` loop of `clean_schema`: each property entry must be a dictionary (a
non-dictionary entry would raise `AttributeError`, modelled as `none`) and
loses its `title` binding. -/
def cleanProps : List (String × Json) → Option (List (String × Json))
  | [] => some []
  | (k, Json.obj pf) :: rest =>
    match cleanProps rest with
    | some r => some ((k, Json.obj (eraseKey pf "title")) :: r)
    | none => none
  | _ :: _ => none

/-- The `if model.Config.extra != Extra.allow: schema['additionalProperties']
= False` step of `clean_schema`. -/
def set_additional (fields : List (String × Json)) (extra : Extra) :
    List (String × Json) :=
  if extra = Extra.allow then fields
  else dictSet fields "additionalProperties" (Json.bool false)

/-- `clean_schema(schema, model)` from the source, with the Model represented
by its `Config.extra` policy (the only attribute the hook reads).  The
schema must be a dictionary; `schema.get('properties', {})` yields `{}` when
the key is absent, and the loop body requires a dictionary of dictionaries.
The hook mutates the schema; the result is the mutated object, `none`
standing for a raised error. -/
def clean_schema (schema : Json) (extra : Extra) : Option Json :=
  match schema with
  | Json.obj fields =>
    match lookupKV fields "properties" with
    | none => some (Json.obj (set_additional fields extra))
    | some (Json.obj props) =>
      match cleanProps props with
      | some props1 =>
        some (Json.obj (set_additional
          (dictSet fields "properties" (Json.obj props1)) extra))
      | none => none
    | some _ => none
  | _ => none

/-! Dictionary lemmas. -/

theorem lookupKV_dictSet_self (l : List (String × Json)) (k : String) (v : Json) :
    lookupKV (dictSet l k v) k = some v := by
  induction l with
  | nil => simp [dictSet, lookupKV]
  | cons kv rest ih =>
    obtain ⟨k', v'⟩ := kv
    by_cases h : k' = k
    · simp [dictSet, lookupKV, h]
    · simp [dictSet, lookupKV, h, ih]

theorem lookupKV_dictSet_ne (l : List (String × Json)) (k k' : String) (v : Json)
    (h : k' ≠ k) : lookupKV (dictSet l k v) k' = lookupKV l k' := by
  induction l with
  | nil => simp [dictSet, lookupKV, Ne.symm h]
  | cons kv rest ih =>
    obtain ⟨k0, v0⟩ := kv
    by_cases h0 : k0 = k
    · subst h0
      rw [dictSet, if_pos rfl, lookupKV, lookupKV,
        if_neg (fun hh => h hh.symm), if_neg (fun hh => h hh.symm)]
    · rw [dictSet, if_neg h0, lookupKV, lookupKV]
      by_cases h1 : k0 = k'
      · rw [if_pos h1, if_pos h1]
      · rw [if_neg h1, if_neg h1, ih]

theorem dictSet_of_lookupKV_eq (l : List (String × Json)) (k : String) (v : Json)
    (h : lookupKV l k = some v) : dictSet l k v = l := by
  induction l with
  | nil => cases h
  | cons kv rest ih =>
    obtain ⟨k0, v0⟩ := kv
    rw [lookupKV] at h
    by_cases h0 : k0 = k
    · rw [if_pos h0] at h
      injection h with h1
      subst h0
      rw [dictSet, if_pos rfl, h1]
    · rw [if_neg h0] at h
      rw [dictSet, if_neg h0, ih h]

theorem eraseKey_idem (l : List (String × Json)) (k : String) :
    eraseKey (eraseKey l k) k = eraseKey l k := by
  simp [eraseKey, List.filter_filter]

theorem lookupKV_eraseKey_self (l : List (String × Json)) (k : String) :
    lookupKV (eraseKey l k) k = none := by
  induction l with
  | nil => rfl
  | cons kv rest ih =>
    obtain ⟨k', v'⟩ := kv
    simp only [eraseKey, List.filter_cons] at ih ⊢
    by_cases h : k' = k
    · rw [if_neg (by simp [h])]
      exact ih
    · rw [if_pos (by simp [h]), lookupKV, if_neg h]
      exact ih

theorem lookupKV_eraseKey_ne (l : List (String × Json)) (k k' : String)
    (h : k' ≠ k) : lookupKV (eraseKey l k) k' = lookupKV l k' := by
  induction l with
  | nil => rfl
  | cons kv rest ih =>
    obtain ⟨k0, v0⟩ := kv
    simp only [eraseKey, List.filter_cons] at ih ⊢
    by_cases h0 : k0 = k
    · rw [if_neg (by simp [h0]), ih, lookupKV,
        if_neg (fun hh => h (hh.symm.trans h0))]
    · rw [if_pos (by simp [h0]), lookupKV, lookupKV]
      by_cases h1 : k0 = k'
      · rw [if_pos h1, if_pos h1]
      · rw [if_neg h1, if_neg h1, ih]

theorem eraseKey_of_lookupKV_none (l : List (String × Json)) (k : String)
    (h : lookupKV l k = none) : eraseKey l k = l := by
  induction l with
  | nil => rfl
  | cons kv rest ih =>
    obtain ⟨k', v'⟩ := kv
    rw [lookupKV] at h
    by_cases h0 : k' = k
    · rw [if_pos h0] at h
      cases h
    · rw [if_neg h0] at h
      simp only [eraseKey, List.filter_cons] at ih ⊢
      rw [if_pos (by simp [h0]), ih h]

/-! Lemmas about `cleanProps` and `set_additional`. -/

theorem cleanProps_idem :
    ∀ props props1, cleanProps props = some props1 → cleanProps props1 = some props1 := by
  intro props
  induction props with
  | nil =>
    intro props1 h
    rw [cleanProps] at h
    injection h with h1
    subst h1
    rfl
  | cons kv rest ih =>
    intro props1 h
    obtain ⟨k, v⟩ := kv
    cases v with
    | obj pf =>
      cases hr : cleanProps rest with
      | none => simp [cleanProps, hr] at h
      | some r =>
        simp only [cleanProps, hr] at h
        injection h with h1
        subst h1
        simp only [cleanProps, ih r hr, eraseKey_idem]
    | null => simp [cleanProps] at h
    | bool b => simp [cleanProps] at h
    | num n => simp [cleanProps] at h
    | str s => simp [cleanProps] at h
    | arr es => simp [cleanProps] at h

theorem cleanProps_forall2 :
    ∀ props props1, cleanProps props = some props1 →
      List.Forall₂ (fun p q => q.1 = p.1 ∧ ∃ pf, p.2 = Json.obj pf ∧
        q.2 = Json.obj (eraseKey pf "title")) props props1 := by
  intro props
  induction props with
  | nil =>
    intro props1 h
    rw [cleanProps] at h
    injection h with h1
    subst h1
    exact List.Forall₂.nil
  | cons kv rest ih =>
    intro props1 h
    obtain ⟨k, v⟩ := kv
    cases v with
    | obj pf =>
      cases hr : cleanProps rest with
      | none => simp [cleanProps, hr] at h
      | some r =>
        simp only [cleanProps, hr] at h
        injection h with h1
        subst h1
        exact List.Forall₂.cons ⟨rfl, pf, rfl, rfl⟩ (ih r hr)
    | null => simp [cleanProps] at h
    | bool b => simp [cleanProps] at h
    | num n => simp [cleanProps] at h
    | str s => simp [cleanProps] at h
    | arr es => simp [cleanProps] at h

theorem set_additional_allow (fields : List (String × Json)) :
    set_additional fields Extra.allow = fields := if_pos rfl

theorem set_additional_of_ne (fields : List (String × Json)) {extra : Extra}
    (h : extra ≠ Extra.allow) :
    set_additional fields extra =
      dictSet fields "additionalProperties" (Json.bool false) := if_neg h

theorem lookupKV_set_additional_ne (fields : List (String × Json)) (extra : Extra)
    (k : String) (hk : k ≠ "additionalProperties") :
    lookupKV (set_additional fields extra) k = lookupKV fields k := by
  by_cases h : extra = Extra.allow
  · rw [h, set_additional_allow]
  · rw [set_additional_of_ne _ h, lookupKV_dictSet_ne _ _ _ _ hk]

theorem set_additional_idem (fields : List (String × Json)) (extra : Extra) :
    set_additional (set_additional fields extra) extra = set_additional fields extra := by
  by_cases h : extra = Extra.allow
  · rw [h, set_additional_allow]
  · rw [set_additional_of_ne _ h, set_additional_of_ne _ h]
    exact dictSet_of_lookupKV_eq _ _ _ (lookupKV_dictSet_self _ _ _)

/-! Inversion helpers for `clean_schema`. -/

theorem clean_schema_eq_of_no_props {fields : List (String × Json)} {extra : Extra}
    (h : lookupKV fields "properties" = none) :
    clean_schema (Json.obj fields) extra =
      some (Json.obj (set_additional fields extra)) := by
  rw [clean_schema, h]

theorem clean_schema_eq_of_props {fields props props1 : List (String × Json)}
    {extra : Extra} (h1 : lookupKV fields "properties" = some (Json.obj props))
    (h2 : cleanProps props = some props1) :
    clean_schema (Json.obj fields) extra =
      some (Json.obj (set_additional
        (dictSet fields "properties" (Json.obj props1)) extra)) := by
  simp only [clean_schema, h1, h2]

/-- Claim C3: after `clean_schema` runs, the `additionalProperties` key is
left untouched when the Model's extra-fields policy is exactly `allow`, and
is bound to `false` for any other policy. -/
theorem clean_schema_additional_properties (schema : Json) (extra : Extra)
    (s' : Json) (h : clean_schema schema extra = some s') :
    ∃ fields out, schema = Json.obj fields ∧ s' = Json.obj out ∧
      (extra = Extra.allow →
        lookupKV out "additionalProperties" = lookupKV fields "additionalProperties") ∧
      (extra ≠ Extra.allow →
        lookupKV out "additionalProperties" = some (Json.bool false)) := by
  cases schema with
  | obj fields =>
    refine ⟨fields, ?_⟩
    cases hprops : lookupKV fields "properties" with
    | none =>
      rw [clean_schema_eq_of_no_props hprops] at h
      injection h with h1
      refine ⟨set_additional fields extra, rfl, h1.symm, ?_, ?_⟩
      · intro ha
        rw [ha, set_additional_allow]
      · intro ha
        rw [set_additional_of_ne _ ha, lookupKV_dictSet_self]
    | some v =>
      cases v with
      | obj props =>
        cases hcp : cleanProps props with
        | none => simp [clean_schema, hprops, hcp] at h
        | some props1 =>
          rw [clean_schema_eq_of_props hprops hcp] at h
          injection h with h1
          refine ⟨_, rfl, h1.symm, ?_, ?_⟩
          · intro ha
            rw [ha, set_additional_allow,
              lookupKV_dictSet_ne _ _ _ _ (by decide)]
          · intro ha
            rw [set_additional_of_ne _ ha, lookupKV_dictSet_self]
      | null => simp [clean_schema, hprops] at h
      | bool b => simp [clean_schema, hprops] at h
      | num n => simp [clean_schema, hprops] at h
      | str s => simp [clean_schema, hprops] at h
      | arr es => simp [clean_schema, hprops] at h
  | null => simp [clean_schema] at h
  | bool b => simp [clean_schema] at h
  | num n => simp [clean_schema] at h
  | str s => simp [clean_schema] at h
  | arr es => simp [clean_schema] at h

/-- Witness for `clean_schema_additional_properties`: a concrete schema with
one property and the `forbid` policy gets `additionalProperties: false`. -/
theorem clean_schema_additional_properties_witness :
    ∃ fields out,
      (Json.obj [("title", Json.str "Foo"),
        ("properties", Json.obj [("a", Json.obj [("title", Json.str "A"),
          ("type", Json.str "integer")])])]) = Json.obj fields ∧
      Json.obj [("title", Json.str "Foo"),
        ("properties", Json.obj [("a", Json.obj [("type", Json.str "integer")])]),
        ("additionalProperties", Json.bool false)] = Json.obj out ∧
      (Extra.forbid = Extra.allow →
        lookupKV out "additionalProperties" = lookupKV fields "additionalProperties") ∧
      (Extra.forbid ≠ Extra.allow →
        lookupKV out "additionalProperties" = some (Json.bool false)) :=
  clean_schema_additional_properties _ Extra.forbid _ rfl

/-- Claim C6: the cleanup hook is idempotent — whenever it succeeds, running
it again on its output succeeds and leaves the schema unchanged. -/
theorem clean_schema_idempotent (schema : Json) (extra : Extra) (s' : Json)
    (h : clean_schema schema extra = some s') : clean_schema s' extra = some s' := by
  cases schema with
  | obj fields =>
    cases hprops : lookupKV fields "properties" with
    | none =>
      rw [clean_schema_eq_of_no_props hprops] at h
      injection h with h1
      subst h1
      have hprops' : lookupKV (set_additional fields extra) "properties" = none := by
        rw [lookupKV_set_additional_ne _ _ _ (by decide), hprops]
      rw [clean_schema_eq_of_no_props hprops', set_additional_idem]
    | some v =>
      cases v with
      | obj props =>
        cases hcp : cleanProps props with
        | none => simp [clean_schema, hprops, hcp] at h
        | some props1 =>
          rw [clean_schema_eq_of_props hprops hcp] at h
          injection h with h1
          subst h1
          have hlook : lookupKV (set_additional
              (dictSet fields "properties" (Json.obj props1)) extra) "properties" =
              some (Json.obj props1) := by
            rw [lookupKV_set_additional_ne _ _ _ (by decide), lookupKV_dictSet_self]
          rw [clean_schema_eq_of_props hlook (cleanProps_idem _ _ hcp)]
          rw [dictSet_of_lookupKV_eq _ _ _ hlook, set_additional_idem]
      | null => simp [clean_schema, hprops] at h
      | bool b => simp [clean_schema, hprops] at h
      | num n => simp [clean_schema, hprops] at h
      | str s => simp [clean_schema, hprops] at h
      | arr es => simp [clean_schema, hprops] at h
  | null => simp [clean_schema] at h
  | bool b => simp [clean_schema] at h
  | num n => simp [clean_schema] at h
  | str s => simp [clean_schema] at h
  | arr es => simp [clean_schema] at h

/-- Witness for `clean_schema_idempotent`: applying the hook to the already
cleaned concrete schema of the C3 witness returns it unchanged. -/
theorem clean_schema_idempotent_witness :
    clean_schema
      (Json.obj [("title", Json.str "Foo"),
        ("properties", Json.obj [("a", Json.obj [("type", Json.str "integer")])]),
        ("additionalProperties", Json.bool false)]) Extra.forbid =
    some (Json.obj [("title", Json.str "Foo"),
        ("properties", Json.obj [("a", Json.obj [("type", Json.str "integer")])]),
        ("additionalProperties", Json.bool false)]) :=
  clean_schema_idempotent
    (Json.obj [("title", Json.str "Foo"),
      ("properties", Json.obj [("a", Json.obj [("title", Json.str "A"),
        ("type", Json.str "integer")])])]) Extra.forbid _ rfl

/-- Lookup of a key inside a JSON value, `none` on non-objects (used to state
what the cleanup hook leaves untouched inside property entries). -/
def jlookup : Json → String → Option Json
  | Json.obj l, k => lookupKV l k
  | _, _ => none

/-- Claim C7: the cleanup hook removes the `title` key from every entry
directly under the schema's `properties` mapping (a no-op for entries
without one), and only that: inside each entry every key other than `title`
— nested or referenced sub-schemas included — is left exactly as it was, so
the hook does not descend. -/
theorem clean_schema_removes_property_titles (fields props : List (String × Json))
    (extra : Extra) (s' : Json)
    (hprops : lookupKV fields "properties" = some (Json.obj props))
    (h : clean_schema (Json.obj fields) extra = some s') :
    ∃ props1, (∃ out, s' = Json.obj out ∧
        lookupKV out "properties" = some (Json.obj props1)) ∧
      List.Forall₂ (fun p q => q.1 = p.1 ∧ ∃ pf, p.2 = Json.obj pf ∧
        q.2 = Json.obj (eraseKey pf "title")) props props1 ∧
      (∀ pf : List (String × Json),
        lookupKV (eraseKey pf "title") "title" = none ∧
        (∀ k, k ≠ "title" → lookupKV (eraseKey pf "title") k = lookupKV pf k) ∧
        (lookupKV pf "title" = none → eraseKey pf "title" = pf)) := by
  cases hcp : cleanProps props with
  | none => simp [clean_schema, hprops, hcp] at h
  | some props1 =>
    rw [clean_schema_eq_of_props hprops hcp] at h
    injection h with h1
    refine ⟨props1, ⟨_, h1.symm, ?_⟩, cleanProps_forall2 _ _ hcp, ?_⟩
    · rw [lookupKV_set_additional_ne _ _ _ (by decide), lookupKV_dictSet_self]
    · intro pf
      exact ⟨lookupKV_eraseKey_self pf "title",
        fun k hk => lookupKV_eraseKey_ne pf "title" k hk,
        fun hnone => eraseKey_of_lookupKV_none pf "title" hnone⟩

/-- Witness for `clean_schema_removes_property_titles` at a concrete schema:
the property `a` loses its `title` entry and keeps its `type` entry, the
property `b` (which has no `title`) is untouched. -/
theorem clean_schema_removes_property_titles_witness :
    ∃ props1, (∃ out,
        Json.obj [("properties", Json.obj
          [("a", Json.obj [("type", Json.str "integer")]),
            ("b", Json.obj [("type", Json.str "string")])])] = Json.obj out ∧
        lookupKV out "properties" = some (Json.obj props1)) ∧
      List.Forall₂ (fun p q => q.1 = p.1 ∧ ∃ pf, p.2 = Json.obj pf ∧
        q.2 = Json.obj (eraseKey pf "title"))
        [("a", Json.obj [("title", Json.str "A"), ("type", Json.str "integer")]),
          ("b", Json.obj [("type", Json.str "string")])] props1 ∧
      (∀ pf : List (String × Json),
        lookupKV (eraseKey pf "title") "title" = none ∧
        (∀ k, k ≠ "title" → lookupKV (eraseKey pf "title") k = lookupKV pf k) ∧
        (lookupKV pf "title" = none → eraseKey pf "title" = pf)) :=
  clean_schema_removes_property_titles
    [("properties", Json.obj
      [("a", Json.obj [("title", Json.str "A"), ("type", Json.str "integer")]),
        ("b", Json.obj [("type", Json.str "string")])])]
    [("a", Json.obj [("title", Json.str "A"), ("type", Json.str "integer")]),
      ("b", Json.obj [("type", Json.str "string")])]
    Extra.allow _ rfl rfl

/-- Claim C10: the cleanup hook changes nothing except possibly the top-level
`additionalProperties` binding and the `title` bindings of the direct
entries of `properties`: every other top-level key keeps its value, a
missing `properties` key stays missing, and inside each property entry every
key other than `title` keeps its value. -/
theorem clean_schema_frame (fields : List (String × Json)) (extra : Extra)
    (s' : Json) (h : clean_schema (Json.obj fields) extra = some s') :
    ∃ out, s' = Json.obj out ∧
      (∀ k, k ≠ "additionalProperties" → k ≠ "properties" →
        lookupKV out k = lookupKV fields k) ∧
      (lookupKV fields "properties" = none → lookupKV out "properties" = none) ∧
      (∀ props, lookupKV fields "properties" = some (Json.obj props) →
        ∃ props1, lookupKV out "properties" = some (Json.obj props1) ∧
          List.Forall₂ (fun p q => q.1 = p.1 ∧
            ∀ k, k ≠ "title" → jlookup q.2 k = jlookup p.2 k) props props1) := by
  cases hprops : lookupKV fields "properties" with
  | none =>
    rw [clean_schema_eq_of_no_props hprops] at h
    injection h with h1
    refine ⟨_, h1.symm, ?_, ?_, ?_⟩
    · intro k hk _
      exact lookupKV_set_additional_ne _ _ _ hk
    · intro _
      rw [lookupKV_set_additional_ne _ _ _ (by decide), hprops]
    · intro props hcontr
      cases hcontr
  | some v =>
    cases v with
    | obj props =>
      cases hcp : cleanProps props with
      | none => simp [clean_schema, hprops, hcp] at h
      | some props1 =>
        rw [clean_schema_eq_of_props hprops hcp] at h
        injection h with h1
        refine ⟨_, h1.symm, ?_, ?_, ?_⟩
        · intro k hk hp
          rw [lookupKV_set_additional_ne _ _ _ hk, lookupKV_dictSet_ne _ _ _ _ hp]
        · intro hcontr
          cases hcontr
        · intro props' hprops'
          injection hprops' with hv
          injection hv with hpp
          subst hpp
          refine ⟨props1, ?_, ?_⟩
          · rw [lookupKV_set_additional_ne _ _ _ (by decide), lookupKV_dictSet_self]
          · refine (cleanProps_forall2 _ _ hcp).imp ?_
            rintro p q ⟨hq1, pf, hp2, hq2⟩
            refine ⟨hq1, ?_⟩
            intro k hk
            rw [hq2, hp2]
            exact lookupKV_eraseKey_ne pf "title" k hk
    | null => simp [clean_schema, hprops] at h
    | bool b => simp [clean_schema, hprops] at h
    | num n => simp [clean_schema, hprops] at h
    | str s => simp [clean_schema, hprops] at h
    | arr es => simp [clean_schema, hprops] at h

/-- Witness for `clean_schema_frame` at a concrete schema with an unrelated
top-level key and a nested sub-object inside a property entry. -/
theorem clean_schema_frame_witness :
    ∃ out,
      Json.obj [("type", Json.str "object"),
        ("properties", Json.obj [("a", Json.obj
          [("items", Json.obj [("title", Json.str "inner")])])]),
        ("additionalProperties", Json.bool false)] = Json.obj out ∧
      (∀ k, k ≠ "additionalProperties" → k ≠ "properties" →
        lookupKV out k = lookupKV [("type", Json.str "object"),
          ("properties", Json.obj [("a", Json.obj [("title", Json.str "A"),
            ("items", Json.obj [("title", Json.str "inner")])])])] k) ∧
      (lookupKV [("type", Json.str "object"),
        ("properties", Json.obj [("a", Json.obj [("title", Json.str "A"),
          ("items", Json.obj [("title", Json.str "inner")])])])] "properties" = none →
        lookupKV out "properties" = none) ∧
      (∀ props, lookupKV [("type", Json.str "object"),
        ("properties", Json.obj [("a", Json.obj [("title", Json.str "A"),
          ("items", Json.obj [("title", Json.str "inner")])])])] "properties" =
            some (Json.obj props) →
        ∃ props1, lookupKV out "properties" = some (Json.obj props1) ∧
          List.Forall₂ (fun p q => q.1 = p.1 ∧
            ∀ k, k ≠ "title" → jlookup q.2 k = jlookup p.2 k) props props1) :=
  clean_schema_frame [("type", Json.str "object"),
    ("properties", Json.obj [("a", Json.obj [("title", Json.str "A"),
      ("items", Json.obj [("title", Json.str "inner")])])])] Extra.forbid _ rfl

/-! ## Container synthesis: `create_model('_Master_', ...)`

The container's fields come from the Python dict comprehension
`{m.__name__: (m, ...) for m in models}`: keys appear in first-occurrence
order, a later model with the same name silently overwrites the value, and
the tuple `(m, ...)` declares a field of type `m` whose default is
`Ellipsis`, i.e. a required field. -/

/-- A pydantic field specification `(type, default)`: `required` records the
`...` (Ellipsis) default. -/
structure FieldSpec where
  type : PyObj
  required : Bool

/-- Python `d[k] = v` on the comprehension's dictionary: overwrite an
existing binding in place, else append. -/
def dictSetField : List (String × FieldSpec) → String → FieldSpec → List (String × FieldSpec)
  | [], k, v => [(k, v)]
  | (k', v') :: rest, k, v =>
    if k' = k then (k, v) :: rest else (k', v') :: dictSetField rest k v

/-- The field dictionary `{m.__name__: (m, ...) for m in models}` handed to
`create_model('_Master_', ...)`. -/
def master_model_fields (models : List PyObj) : List (String × FieldSpec) :=
  models.foldl (fun d m => dictSetField d (getattr_name m) ⟨m, true⟩) []

def c9_a : PyObj := PyObj.cls 0 "X" true false

def c9_b : PyObj := PyObj.cls 1 "X" true false

/-- Claim C9 counterexample: two distinct discovered Models sharing the class
name `X` yield a container with a single field, typed as the *later* Model —
not one field per discovered Model. -/
theorem master_model_name_collision_counterexample :
    master_model_fields [c9_a, c9_b] = [("X", FieldSpec.mk c9_b true)] ∧
      c9_a ≠ c9_b := by
  constructor
  · rfl
  · intro hcontr
    simp [c9_a, c9_b] at hcontr

theorem dictSetField_append (acc : List (String × FieldSpec)) (k : String)
    (v : FieldSpec) (h : ∀ kv ∈ acc, kv.1 ≠ k) :
    dictSetField acc k v = acc ++ [(k, v)] := by
  induction acc with
  | nil => rfl
  | cons kv rest ih =>
    obtain ⟨k', v'⟩ := kv
    rw [dictSetField, if_neg (h (k', v') (List.mem_cons_self _ _)), List.cons_append,
      ih (fun kv hkv => h kv (List.mem_cons_of_mem _ hkv))]

theorem master_model_fields_aux (models : List PyObj) :
    ∀ acc : List (String × FieldSpec), (models.map getattr_name).Nodup →
      (∀ m ∈ models, ∀ kv ∈ acc, kv.1 ≠ getattr_name m) →
      models.foldl (fun d m => dictSetField d (getattr_name m) ⟨m, true⟩) acc =
        acc ++ models.map (fun m => (getattr_name m, FieldSpec.mk m true)) := by
  induction models with
  | nil =>
    intro acc _ _
    simp
  | cons m ms ih =>
    intro acc hnodup hacc
    rw [List.map_cons, List.nodup_cons] at hnodup
    obtain ⟨hnotin, hnodup'⟩ := hnodup
    rw [List.foldl_cons]
    rw [dictSetField_append acc (getattr_name m) ⟨m, true⟩
      (fun kv hkv => hacc m (List.mem_cons_self _ _) kv hkv)]
    have hside : ∀ m' ∈ ms, ∀ kv ∈ acc ++ [(getattr_name m, (⟨m, true⟩ : FieldSpec))],
        kv.1 ≠ getattr_name m' := by
      intro m' hm' kv hkv
      rcases List.mem_append.mp hkv with hin | hin
      · exact hacc m' (List.mem_cons_of_mem _ hm') kv hin
      · rcases List.mem_singleton.mp hin with rfl
        intro hcontr
        have hc : getattr_name m = getattr_name m' := hcontr
        apply hnotin
        rw [hc]
        exact List.mem_map_of_mem getattr_name hm'
    rw [ih _ hnodup' hside]
    simp

/-- Claim C9 (amended): when the discovered Models' class names are pairwise
distinct, the synthesized container has exactly one field per discovered
Model, in discovery order, named exactly that Model's class name, typed as
that Model, and required (`...` default).  When names collide, the dict
comprehension keyed by class name keeps one field per distinct name, typed
as the last Model with that name. -/
theorem master_model_fields_of_distinct_names (models : List PyObj)
    (h : (models.map getattr_name).Nodup) :
    master_model_fields models =
      models.map (fun m => (getattr_name m, FieldSpec.mk m true)) := by
  rw [master_model_fields, master_model_fields_aux models [] h (by simp)]
  rfl

/-- Witness for `master_model_fields_of_distinct_names` on two concrete
models with distinct names. -/
theorem master_model_fields_of_distinct_names_witness :
    master_model_fields [PyObj.cls 0 "Foo" true false, PyObj.cls 1 "Bar" true false] =
      [("Foo", FieldSpec.mk (PyObj.cls 0 "Foo" true false) true),
        ("Bar", FieldSpec.mk (PyObj.cls 1 "Bar" true false) true)] :=
  master_model_fields_of_distinct_names
    [PyObj.cls 0 "Foo" true false, PyObj.cls 1 "Bar" true false] (by decide)

end Pydantic2TS
